import Mathlib

/-!
A shallow embedding of the matching-engine core of the exchange-platform
backend (`src/backend/src/services/order_book_service.rs`, `models.rs`,
`services/order_service.rs`, `handlers/orders.rs`) and theorems settling
the specification claims about it.

Modelling conventions:
* `rust_decimal::Decimal` (exact decimal arithmetic) is embedded as `ℚ`;
  every operation the engine performs on decimals (add, subtract, min,
  compare, sum) is exact, so `ℚ` is a faithful carrier.
* `Uuid` values are embedded as `Nat`.  Each `Uuid::new_v4()` call draws
  the next element of an explicit stream `gen : Nat → Nat` at a threaded
  call counter `u`; each `chrono::Utc::now()` call draws from a stream
  `clock : Nat → Nat` at a counter `c`.  This makes the nondeterminism of
  fresh ids and clock readings an explicit input of the model.
* `BTreeMap<Decimal, OrderQueue>` is embedded as an association list whose
  keys are kept strictly ascending (the B-tree key invariant); iteration
  order of the list is the map's ascending key order.
* The async lock acquisitions (`read().await` / `write().await`) are
  executed by a single command at a time here, matching the intended
  serial-per-symbol discipline; the interleaving race the source allows is
  not the subject of any claim below.
-/

inductive OrderSide where
  | buy
  | sell
deriving DecidableEq, Repr

inductive OrderType where
  | market
  | limit
  | stop
  | stopLimit
deriving DecidableEq, Repr

/-- Order status (`models.rs`); `opened` embeds the source's `Open` variant,
which is a reserved word in Lean. -/
inductive OrderStatus where
  | new
  | opened
  | partiallyFilled
  | filled
  | cancelled
  | rejected
deriving DecidableEq, Repr

/-- `models::Order`. -/
structure Order where
  id : Nat
  userId : Nat
  symbol : String
  side : OrderSide
  quantity : ℚ
  price : ℚ
  orderType : OrderType
  status : OrderStatus
  filledQuantity : ℚ
  createdAt : Nat
  updatedAt : Nat
deriving DecidableEq, Repr

/-- `models::Trade`. -/
structure Trade where
  id : Nat
  orderId : Nat
  symbol : String
  quantity : ℚ
  price : ℚ
  executedAt : Nat
deriving DecidableEq, Repr

/-- `order_book_service::OrderQueue`. -/
structure OrderQueue where
  orders : List Order
deriving DecidableEq, Repr

/-- Stable insertion into a list sorted by ascending `createdAt`: the new
element is placed after every entry whose key is less than or equal to its
own. -/
def insertByCreated (o : Order) : List Order → List Order
  | [] => [o]
  | x :: xs => if o.createdAt < x.createdAt then o :: x :: xs else x :: insertByCreated o xs

/-- Left-to-right insertion sort by ascending `createdAt`.  This embeds the
stable `sort_by_key(|o| o.created_at)` call of `OrderQueue::add_order`:
both are the (unique) stable sort by that key. -/
def sortByCreated (l : List Order) : List Order :=
  l.foldl (fun acc o => insertByCreated o acc) []

namespace OrderQueue

/-- `OrderQueue::add_order`: push to the back, then stably sort by
`created_at`. -/
def add_order (q : OrderQueue) (o : Order) : OrderQueue :=
  ⟨sortByCreated (q.orders ++ [o])⟩

/-- `OrderQueue::remove_order`: remove the first order with the given id,
if any.  (The source also returns the removed order; both callers discard
it, so only the resulting queue is modelled.) -/
def remove_order (q : OrderQueue) (oid : Nat) : OrderQueue :=
  ⟨q.orders.eraseP (fun o => o.id == oid)⟩

/-- `OrderQueue::get_next_order` is `Vec::pop`: it removes and returns the
LAST element of the vector. -/
def get_next_order (q : OrderQueue) : Option (Order × OrderQueue) :=
  match q.orders.getLast? with
  | none => none
  | some o => some (o, ⟨q.orders.dropLast⟩)

/-- `OrderQueue::is_empty`. -/
def is_empty (q : OrderQueue) : Bool := q.orders.isEmpty

/-- `OrderQueue::total_quantity`. -/
def total_quantity (q : OrderQueue) : ℚ :=
  (q.orders.map (fun o => o.quantity - o.filledQuantity)).sum

end OrderQueue

/-- A `BTreeMap<Decimal, OrderQueue>` half-book: association list with
strictly ascending keys. -/
abbrev Book := List (ℚ × OrderQueue)

/-- `BTreeMap::get` / `get_mut` lookup. -/
def bookLookup : Book → ℚ → Option OrderQueue
  | [], _ => none
  | (p, q) :: rest, x => if x = p then some q else bookLookup rest x

/-- Writing back the queue mutated through a `get_mut` reference; leaves
the book unchanged when the key is absent. -/
def bookSetQueue : Book → ℚ → OrderQueue → Book
  | [], _, _ => []
  | (p, q) :: rest, x, qn =>
    if x = p then (p, qn) :: rest else (p, q) :: bookSetQueue rest x qn

/-- `BTreeMap::remove`. -/
def bookErase : Book → ℚ → Book
  | [], _ => []
  | (p, q) :: rest, x => if x = p then rest else (p, q) :: bookErase rest x

/-- `first_key_value` of an ascending map: the minimum key. -/
def firstKey (b : Book) : Option ℚ := b.head?.map Prod.fst

/-- `last_key_value` of an ascending map: the maximum key. -/
def lastKey (b : Book) : Option ℚ := b.getLast?.map Prod.fst

/-- `entry(p).or_insert_with(OrderQueue::new)` followed by
`OrderQueue::add_order`: append to the level at `p`, creating the level at
its sorted key position when missing. -/
def bookAddOrder : Book → ℚ → Order → Book
  | [], x, o => [(x, OrderQueue.add_order ⟨[]⟩ o)]
  | (p, q) :: rest, x, o =>
    if x = p then (p, OrderQueue.add_order q o) :: rest
    else if x < p then (x, OrderQueue.add_order ⟨[]⟩ o) :: (p, q) :: rest
    else (p, q) :: bookAddOrder rest x o

/-- Total number of resting orders in a half-book. -/
def totalOrders (b : Book) : Nat := (b.map (fun pq => pq.2.orders.length)).sum

/-- Every order stored in a half-book, in key order. -/
def bookOrders (b : Book) : List Order := (b.map (fun pq => pq.2.orders)).flatten

/-- The (id, limit-price) pairs of all orders resting in a half-book. -/
def idPricePairs (b : Book) : List (Nat × ℚ) :=
  (bookOrders b).map (fun o => (o.id, o.price))

/-- Level contents are well-placed: every order stored under a price key
carries that key as its limit price.  (Maintained by the engine, which
inserts orders at key `order.price`.) -/
def wfBook (b : Book) : Prop := ∀ pq ∈ b, ∀ o ∈ pq.2.orders, o.price = pq.1

instance wfBook.dec : DecidablePred wfBook := fun b =>
  inferInstanceAs (Decidable (∀ pq ∈ b, ∀ o ∈ pq.2.orders, o.price = pq.1))

/-- The B-tree key invariant: pairwise strictly ascending keys. -/
def sortedBook (b : Book) : Prop := (b.map Prod.fst).Pairwise (· < ·)

instance sortedBook.dec : DecidablePred sortedBook := fun b =>
  inferInstanceAs (Decidable ((b.map Prod.fst).Pairwise (· < ·)))

/-- The result of one matching pass: the trades emitted, the mutated
opposing half-book, and the advanced uuid / clock counters. -/
structure MatchResult where
  trades : List Trade
  book : Book
  u : Nat
  c : Nat
deriving DecidableEq, Repr

/-- The while loop of `OrderBookService::match_buy_order`, with an explicit
fuel argument.  Every iteration that recurses either removes an order from
the book, removes a key, or (in the put-back branch, which only happens
when the maker is left partially filled, i.e. the taker was exhausted)
zeroes `remaining` so the next iteration stops; hence
`totalOrders + length + 2` fuel, as supplied by `match_buy_order`, always
outlasts the loop and the zero-fuel branch is never taken. -/
def matchBuyLoop (buy : Order) (gen clock : Nat → Nat) :
    Nat → Book → ℚ → Nat → Nat → MatchResult
  | 0, asks, _, u, c => ⟨[], asks, u, c⟩
  | fuel + 1, asks, remaining, u, c =>
    if 0 < remaining then
      match firstKey asks with
      | none => ⟨[], asks, u, c⟩
      | some askPrice =>
        -- Check if buy price is >= ask price
        if askPrice ≤ buy.price then
          match bookLookup asks askPrice with
          | none => ⟨[], asks, u, c⟩   -- unreachable: the key was just observed
          | some q =>
            match OrderQueue.get_next_order q with
            | none =>
              -- No more orders at this price level
              matchBuyLoop buy gen clock fuel (bookErase asks askPrice) remaining u c
            | some (maker, q1) =>
              let tq := min remaining (maker.quantity - maker.filledQuantity)
              if 0 < tq then
                let t : Trade := ⟨gen u, maker.id, buy.symbol, tq, askPrice, clock c⟩
                let maker1 := { maker with filledQuantity := maker.filledQuantity + tq }
                -- If the ask order is not fully filled, put it back
                let q2 := if maker1.filledQuantity < maker1.quantity then
                    OrderQueue.add_order q1 maker1 else q1
                let r := matchBuyLoop buy gen clock fuel
                    (bookSetQueue asks askPrice q2) (remaining - tq) (u + 1) (c + 1)
                ⟨t :: r.trades, r.book, r.u, r.c⟩
              else
                -- zero-quantity maker: it was popped and is dropped
                matchBuyLoop buy gen clock fuel (bookSetQueue asks askPrice q1) remaining u c
        else ⟨[], asks, u, c⟩   -- buy price too low, stop matching
    else ⟨[], asks, u, c⟩

/-- The while loop of `OrderBookService::match_sell_order` (symmetric to
the buy side: best bid is the maximum key, matching while
`sell.price ≤ bid_price`). -/
def matchSellLoop (sell : Order) (gen clock : Nat → Nat) :
    Nat → Book → ℚ → Nat → Nat → MatchResult
  | 0, bids, _, u, c => ⟨[], bids, u, c⟩
  | fuel + 1, bids, remaining, u, c =>
    if 0 < remaining then
      match lastKey bids with
      | none => ⟨[], bids, u, c⟩
      | some bidPrice =>
        if sell.price ≤ bidPrice then
          match bookLookup bids bidPrice with
          | none => ⟨[], bids, u, c⟩
          | some q =>
            match OrderQueue.get_next_order q with
            | none =>
              matchSellLoop sell gen clock fuel (bookErase bids bidPrice) remaining u c
            | some (maker, q1) =>
              let tq := min remaining (maker.quantity - maker.filledQuantity)
              if 0 < tq then
                let t : Trade := ⟨gen u, maker.id, sell.symbol, tq, bidPrice, clock c⟩
                let maker1 := { maker with filledQuantity := maker.filledQuantity + tq }
                let q2 := if maker1.filledQuantity < maker1.quantity then
                    OrderQueue.add_order q1 maker1 else q1
                let r := matchSellLoop sell gen clock fuel
                    (bookSetQueue bids bidPrice q2) (remaining - tq) (u + 1) (c + 1)
                ⟨t :: r.trades, r.book, r.u, r.c⟩
              else
                matchSellLoop sell gen clock fuel (bookSetQueue bids bidPrice q1) remaining u c
        else ⟨[], bids, u, c⟩
    else ⟨[], bids, u, c⟩

/-- `OrderBookService::match_buy_order`.  `remaining` starts at
`buy_order.quantity` (the source does not subtract the incoming
`filled_quantity`). -/
def match_buy_order (buy : Order) (asks : Book) (gen clock : Nat → Nat) (u c : Nat) :
    MatchResult :=
  matchBuyLoop buy gen clock (totalOrders asks + asks.length + 2) asks buy.quantity u c

/-- `OrderBookService::match_sell_order`. -/
def match_sell_order (sell : Order) (bids : Book) (gen clock : Nat → Nat) (u c : Nat) :
    MatchResult :=
  matchSellLoop sell gen clock (totalOrders bids + bids.length + 2) bids sell.quantity u c

/-- The two half-books held by `OrderBookService`. -/
structure Engine where
  bids : Book
  asks : Book
deriving DecidableEq, Repr

/-- The result of `OrderBookService::add_order`. -/
structure AddResult where
  trades : List Trade
  engine : Engine
  u : Nat
  c : Nat
deriving DecidableEq, Repr

/-- `OrderBookService::add_order`: match against the opposing side, then —
when `order.quantity > order.filled_quantity` holds OF THE UNMODIFIED
INPUT (matching only updates a local `remaining_quantity`, never the input
order) — rest a clone carrying `quantity − filled_quantity` with
`filled_quantity` zeroed, at key `order.price` of the own half-book. -/
def Engine.add_order (e : Engine) (o : Order) (gen clock : Nat → Nat) (u c : Nat) :
    AddResult :=
  match o.side with
  | OrderSide.buy =>
    let r := match_buy_order o e.asks gen clock u c
    if o.filledQuantity < o.quantity then
      let ro := { o with quantity := o.quantity - o.filledQuantity, filledQuantity := 0 }
      ⟨r.trades, ⟨bookAddOrder e.bids o.price ro, r.book⟩, r.u, r.c⟩
    else ⟨r.trades, ⟨e.bids, r.book⟩, r.u, r.c⟩
  | OrderSide.sell =>
    let r := match_sell_order o e.bids gen clock u c
    if o.filledQuantity < o.quantity then
      let ro := { o with quantity := o.quantity - o.filledQuantity, filledQuantity := 0 }
      ⟨r.trades, ⟨r.book, bookAddOrder e.asks o.price ro⟩, r.u, r.c⟩
    else ⟨r.trades, ⟨r.book, e.asks⟩, r.u, r.c⟩

/-- `OrderBookService::remove_order`: look up the level at the order's
(side, price); if present, remove the order by id from its queue and drop
the key when the queue is (or was already) empty.  The source
unconditionally returns `Ok(())`. -/
def Engine.remove_order (e : Engine) (o : Order) : Except String Unit × Engine :=
  match o.side with
  | OrderSide.buy =>
    match bookLookup e.bids o.price with
    | none => (Except.ok (), e)
    | some q =>
      let q1 := OrderQueue.remove_order q o.id
      if q1.is_empty then (Except.ok (), ⟨bookErase e.bids o.price, e.asks⟩)
      else (Except.ok (), ⟨bookSetQueue e.bids o.price q1, e.asks⟩)
  | OrderSide.sell =>
    match bookLookup e.asks o.price with
    | none => (Except.ok (), e)
    | some q =>
      let q1 := OrderQueue.remove_order q o.id
      if q1.is_empty then (Except.ok (), ⟨e.bids, bookErase e.asks o.price⟩)
      else (Except.ok (), ⟨e.bids, bookSetQueue e.asks o.price q1⟩)

/-- `models::OrderBookEntry`. -/
structure OrderBookEntry where
  price : ℚ
  quantity : ℚ
  orderCount : Nat
deriving DecidableEq, Repr

/-- `models::OrderBook` (the depth snapshot); `lastUpdated` holds the
`Utc::now()` reading taken when the snapshot is built. -/
structure OrderBookSnap where
  symbol : String
  bids : List OrderBookEntry
  asks : List OrderBookEntry
  lastUpdated : Nat
deriving DecidableEq, Repr

/-- One depth level of the snapshot. -/
def levelEntry (pq : ℚ × OrderQueue) : OrderBookEntry :=
  ⟨pq.1, pq.2.total_quantity, pq.2.orders.length⟩

/-- `OrderBookService::get_order_book`: bids reversed (highest price
first) and truncated to 10 levels; asks in ascending order truncated to
10; `now` is the `Utc::now()` reading stored into `last_updated`. -/
def Engine.get_order_book (e : Engine) (symbol : String) (now : Nat) : OrderBookSnap :=
  ⟨symbol,
   (e.bids.reverse.take 10).map levelEntry,
   (e.asks.take 10).map levelEntry,
   now⟩

/-- `models::CreateOrderRequest`. -/
structure CreateOrderRequest where
  symbol : String
  side : OrderSide
  quantity : ℚ
  price : ℚ
  orderType : OrderType
deriving DecidableEq, Repr

/-- `CreateOrderRequest::validate` (`models.rs`); Rust's `String::len` is
the UTF-8 byte length. -/
def CreateOrderRequest.validate (r : CreateOrderRequest) : Except String Unit :=
  if r.symbol.utf8ByteSize = 0 ∨ 20 < r.symbol.utf8ByteSize then
    Except.error "Symbol must be between 1 and 20 characters"
  else if r.quantity ≤ 0 then
    Except.error "Quantity must be greater than 0"
  else if r.price ≤ 0 then
    Except.error "Price must be greater than 0"
  else Except.ok ()

/-- The result of one submit through the handler. -/
structure CreateResult where
  response : Except String Order
  engine : Engine
  trades : List Trade
  u : Nat
  c : Nat
deriving Repr

/-- The submit path: `handlers::orders::create_order` runs
`CreateOrderRequest::validate` first and returns the validation error
before anything else happens; otherwise `OrderService::create_order`
builds the order row (fresh uuids for id and user_id, fresh timestamps,
status `New`, `filled_quantity` 0) and feeds it to
`OrderBookService::add_order`. -/
def create_order (e : Engine) (r : CreateOrderRequest) (gen clock : Nat → Nat)
    (u c : Nat) : CreateResult :=
  match r.validate with
  | Except.error msg => ⟨Except.error msg, e, [], u, c⟩
  | Except.ok _ =>
    let o : Order := ⟨gen u, gen (u + 1), r.symbol, r.side, r.quantity, r.price,
                      r.orderType, OrderStatus.new, 0, clock c, clock (c + 1)⟩
    let a := e.add_order o gen clock (u + 2) (c + 2)
    ⟨Except.ok o, a.engine, a.trades, a.u, a.c⟩

/-- A dispatcher command.  `cancel n` denotes the caller cancelling the
order whose id was returned by this instance's `n`-th successful submit
(`OrderService::cancel_order` re-reads that row and passes it to
`OrderBookService::remove_order`). -/
inductive Command where
  | submit (r : CreateOrderRequest)
  | cancel (n : Nat)
deriving DecidableEq, Repr

/-- The state of one engine instance processing a command stream. -/
structure RunState where
  engine : Engine
  submitted : List Order
  trades : List Trade
  u : Nat
  c : Nat
deriving Repr

/-- A fresh instance: empty half-books, counters at zero. -/
def initState : RunState := ⟨⟨[], []⟩, [], [], 0, 0⟩

/-- Process one command. -/
def stepCommand (gen clock : Nat → Nat) (s : RunState) : Command → RunState
  | Command.submit r =>
    let res := create_order s.engine r gen clock s.u s.c
    match res.response with
    | Except.error _ => ⟨res.engine, s.submitted, s.trades ++ res.trades, res.u, res.c⟩
    | Except.ok o => ⟨res.engine, s.submitted ++ [o], s.trades ++ res.trades, res.u, res.c⟩
  | Command.cancel n =>
    match s.submitted[n]? with
    | none => s
    | some o => ⟨(s.engine.remove_order o).2, s.submitted, s.trades, s.u, s.c⟩

/-- Run a command stream on a fresh instance whose uuid supply is `gen`
and whose clock is `clock`. -/
def runCommands (cmds : List Command) (gen clock : Nat → Nat) : RunState :=
  cmds.foldl (stepCommand gen clock) initState

/-- The id- and timestamp-free content of a trade event. -/
def tradeObs (t : Trade) : String × ℚ × ℚ := (t.symbol, t.price, t.quantity)

/-- Modelled from the spec: the engine sequence number, a strictly
increasing counter incremented on every observable event (one per trade
plus at least one order-state event per processed command).  The source
maintains no such counter, so it is recovered here by counting over the
run. -/
def specSequence (cmds : List Command) (gen clock : Nat → Nat) : Nat :=
  (runCommands cmds gen clock).trades.length + cmds.length

/-- The half-book an order of the given side rests on / is cancelled
from. -/
def sideBook (e : Engine) : OrderSide → Book
  | OrderSide.buy => e.bids
  | OrderSide.sell => e.asks

/-- The level at `price`, if present, is non-empty and holds no order with
id `oid`.  (The hypothesis under which `remove_order` is a strict no-op.) -/
def levelSafeForAbsent (b : Book) (price : ℚ) (oid : Nat) : Prop :=
  match bookLookup b price with
  | none => True
  | some q => q.orders ≠ [] ∧ ∀ x ∈ q.orders, x.id ≠ oid

instance levelSafeForAbsent.dec (b : Book) (p : ℚ) (oid : Nat) :
    Decidable (levelSafeForAbsent b p oid) :=
  match h : bookLookup b p with
  | none => isTrue (by unfold levelSafeForAbsent; rw [h]; trivial)
  | some q =>
    decidable_of_iff (q.orders ≠ [] ∧ ∀ x ∈ q.orders, x.id ≠ oid)
      (by unfold levelSafeForAbsent; rw [h])

/-- A test order populated with the fields the book operations consult. -/
def mkOrder (oid : Nat) (side : OrderSide) (qty price : ℚ) (created : Nat)
    (ty : OrderType) : Order :=
  ⟨oid, 0, "BTC", side, qty, price, ty, OrderStatus.opened, 0, created, created⟩

/-- A limit-order submit request on symbol BTC. -/
def mkReq (side : OrderSide) (qty price : ℚ) : CreateOrderRequest :=
  ⟨"BTC", side, qty, price, OrderType.limit⟩

/-- Command stream whose net book effect is empty but which emits one
trade: submit a bid, cross it with a sell (which, in this code, also rests
its phantom residual), then cancel both resting entries. -/
def seqCmds : List Command :=
  [Command.submit (mkReq OrderSide.buy 1 100),
   Command.submit (mkReq OrderSide.sell 1 100),
   Command.cancel 0,
   Command.cancel 1]

/-- Command stream producing a single trade. -/
def pairCmds : List Command :=
  [Command.submit (mkReq OrderSide.buy 1 100),
   Command.submit (mkReq OrderSide.sell 1 100)]

/-- Rename the uuid-valued fields of an order through `g` and its
clock-valued fields through `c` (relating two engine instances whose
streams differ). -/
def renameOrder (g c : Nat → Nat) (o : Order) : Order :=
  { o with id := g o.id, userId := g o.userId,
           createdAt := c o.createdAt, updatedAt := c o.updatedAt }

/-- Rename the uuid- and clock-valued fields of a trade. -/
def renameTrade (g c : Nat → Nat) (t : Trade) : Trade :=
  { t with id := g t.id, orderId := g t.orderId, executedAt := c t.executedAt }

def renameQueue (g c : Nat → Nat) (q : OrderQueue) : OrderQueue :=
  ⟨q.orders.map (renameOrder g c)⟩

def renameBook (g c : Nat → Nat) (b : Book) : Book :=
  b.map (fun pq => (pq.1, renameQueue g c pq.2))

def renameEngine (g c : Nat → Nat) (e : Engine) : Engine :=
  ⟨renameBook g c e.bids, renameBook g c e.asks⟩

def renameMatchResult (g c : Nat → Nat) (r : MatchResult) : MatchResult :=
  ⟨r.trades.map (renameTrade g c), renameBook g c r.book, r.u, r.c⟩

def renameAddResult (g c : Nat → Nat) (r : AddResult) : AddResult :=
  ⟨r.trades.map (renameTrade g c), renameEngine g c r.engine, r.u, r.c⟩

def renameCreateResult (g c : Nat → Nat) (r : CreateResult) : CreateResult :=
  ⟨r.response.map (renameOrder g c), renameEngine g c r.engine,
   r.trades.map (renameTrade g c), r.u, r.c⟩

def renameRunState (g c : Nat → Nat) (s : RunState) : RunState :=
  ⟨renameEngine g c s.engine, s.submitted.map (renameOrder g c),
   s.trades.map (renameTrade g c), s.u, s.c⟩

/-- Scenario: a level at price 100 holding two resting asks of quantity 1,
order 1 created at time 1 and order 2 created at time 2. -/
def asksTwo : Book :=
  [(100, ⟨[mkOrder 1 OrderSide.sell 1 100 1 OrderType.limit,
           mkOrder 2 OrderSide.sell 1 100 2 OrderType.limit]⟩)]

/-- Scenario: a level at price 100 holding one resting ask of quantity 1. -/
def asksOne : Book :=
  [(100, ⟨[mkOrder 1 OrderSide.sell 1 100 1 OrderType.limit]⟩)]

/-- Scenario: a marketable buy limit taker, quantity 1 at price 100. -/
def takerBuy : Order := mkOrder 10 OrderSide.buy 1 100 3 OrderType.limit

/-- Submitting `takerBuy` against the two-ask book. -/
def runTwo : AddResult := Engine.add_order ⟨[], asksTwo⟩ takerBuy id id 0 0

/-- Submitting `takerBuy` against the one-ask book (it is fully filled). -/
def runOne : AddResult := Engine.add_order ⟨[], asksOne⟩ takerBuy id id 0 0

/-- Submitting a market buy of quantity 1 (price field 100) on an empty
book. -/
def runMarket : AddResult :=
  Engine.add_order ⟨[], []⟩ (mkOrder 10 OrderSide.buy 1 100 1 OrderType.market) id id 0 0

deriving instance DecidableEq for Except

/-
Batteries marks `Rat.add` and `Rat.sub` `@[irreducible]` for performance
of interactive goals; that hides them from `decide`'s evaluator.  Restoring
the ordinary reducibility of these plain computable definitions lets
concrete engine runs be evaluated by `decide`; kernel checking is
unaffected.
-/
set_option allowUnsafeReducibility true in
attribute [semireducible] Rat.sub Rat.add

/-- Claim C1 is FALSE on the source: within a price level the engine
consumes orders in LIFO order, not FIFO.  With two resting asks at price
100 — order 1 created at time 1, order 2 created at time 2 — an incoming
marketable buy trades against order 2 (the LATER arrival) and leaves order
1 resting: `OrderQueue::get_next_order` is `Vec::pop`, which takes the
back of the `created_at`-ascending vector.  The source's own comment in
`OrderQueue::add_order` says the queue is FIFO. -/
theorem c1_matching_is_lifo_not_fifo :
    runTwo.trades.map Trade.orderId = [2] ∧
    bookLookup runTwo.engine.asks 100 =
      some ⟨[mkOrder 1 OrderSide.sell 1 100 1 OrderType.limit]⟩ := by decide

/-- Claim C2 is FALSE on the source: a taker whose fills sum to its full
quantity still rests on its own half-book at FULL quantity.
`OrderBookService::add_order` tests `order.quantity > order.filled_quantity`
on the unmodified input (matching only updates a local
`remaining_quantity`), so with one resting ask of quantity 1 at 100, an
incoming buy of quantity 1 at 100 is fully filled by one trade and is
nevertheless inserted into the bids at open quantity 1. -/
theorem c2_fully_filled_taker_still_rests :
    (runOne.trades.map Trade.quantity).sum = takerBuy.quantity ∧
    bookLookup runOne.engine.bids 100 = some ⟨[takerBuy]⟩ := by decide

/-- Claim C3 is FALSE on the source: after a submit the book can rest
crossed.  With two asks of quantity 1 at price 100, a buy of quantity 1 at
100 fills one of them and then (because the phantom residual of C2 rests)
is inserted into the bids at 100, leaving best bid = best ask = 100 with
both sides non-empty — the strict `best_bid < best_ask` invariant fails
and the rested bid is marketable against the remaining ask. -/
theorem c3_book_rests_crossed :
    runTwo.engine.bids ≠ [] ∧ runTwo.engine.asks ≠ [] ∧
    lastKey runTwo.engine.bids = some 100 ∧ firstKey runTwo.engine.asks = some 100 ∧
    ¬ ((100 : ℚ) < (100 : ℚ)) := by decide

/-- Claim C5 is FALSE on the source: market orders DO rest.
`OrderBookService::add_order` never inspects `order_type`; a market buy of
quantity 1 submitted against an empty ask side produces zero trades and is
inserted into the bids at its price field instead of being cancelled as
unfillable. -/
theorem c5_market_order_rests_instead_of_cancelling :
    runMarket.trades = [] ∧
    runMarket.engine.bids =
      [(100, ⟨[mkOrder 10 OrderSide.buy 1 100 1 OrderType.market]⟩)] := by decide

/-- Claim C7 is FALSE on the source: a submit can leave an empty price
level behind.  With one resting ask of quantity 1 at 100, an incoming buy
of quantity 1 at 100 pops and fully fills the maker; the matching loop
then stops (remaining = 0) without re-visiting the level, so key 100 stays
in the asks map holding an empty queue. -/
theorem c7_empty_price_level_persists :
    bookLookup runOne.engine.asks 100 = some ⟨[]⟩ := by decide

/-- Writing back the very queue that is stored at a key leaves the book
unchanged. -/
theorem bookSetQueue_self : ∀ (b : Book) (x : ℚ) (q : OrderQueue),
    bookLookup b x = some q → bookSetQueue b x q = b := by
  intro b
  induction b with
  | nil => intro x q h; simp [bookLookup] at h
  | cons pq rest ih =>
    intro x q h
    obtain ⟨p, qq⟩ := pq
    simp only [bookLookup] at h
    simp only [bookSetQueue]
    by_cases hx : x = p
    · simp [hx] at h ⊢; exact h.symm
    · simp [hx] at h ⊢; exact ih x q h

/-- Claim C10 as stated is FALSE on the source: cancelling an id that is
absent from the queue at its (side, price) is NOT always a book no-op.
In the reachable state left by a fully-consumed ask level (see C7), the
asks map holds key 100 with an empty queue; `remove_order` for an
unrelated sell order at price 100 then finds the level, removes nothing,
sees the queue empty, and DROPS the key — the ask side changes (while
still returning `Ok(())`). -/
theorem c10_counterexample :
    bookLookup runOne.engine.asks 100 = some ⟨[]⟩ ∧
    (runOne.engine.remove_order (mkOrder 999 OrderSide.sell 1 100 7 OrderType.limit)).1 =
      Except.ok () ∧
    (runOne.engine.remove_order (mkOrder 999 OrderSide.sell 1 100 7 OrderType.limit)).2.asks ≠
      runOne.engine.asks := by decide

/-- Claim C10 (amended): `OrderBookService::remove_order` for an order
whose id is not present returns `Ok(())` and leaves both half-books
completely unchanged, PROVIDED the level at the order's (side, price) is
absent or non-empty; when an empty level sits at that price the call drops
that key (see the counterexample). -/
theorem c10_remove_absent_id_noop (e : Engine) (o : Order)
    (h : levelSafeForAbsent (sideBook e o.side) o.price o.id) :
    e.remove_order o = (Except.ok (), e) := by
  cases hs : o.side
  case buy =>
    rw [hs] at h; simp only [sideBook] at h
    unfold levelSafeForAbsent at h
    simp only [Engine.remove_order, hs]
    cases hl : bookLookup e.bids o.price with
    | none => rfl
    | some q =>
      rw [hl] at h
      obtain ⟨hne, hid⟩ := h
      have hq : OrderQueue.remove_order q o.id = q := by
        unfold OrderQueue.remove_order
        rw [List.eraseP_of_forall_not]
        · intro a ha
          simp [hid a ha]
      have hemp : q.is_empty = false := by
        unfold OrderQueue.is_empty
        simpa [List.isEmpty_iff] using hne
      simp [hq, hemp, bookSetQueue_self _ _ _ hl]
  case sell =>
    rw [hs] at h; simp only [sideBook] at h
    unfold levelSafeForAbsent at h
    simp only [Engine.remove_order, hs]
    cases hl : bookLookup e.asks o.price with
    | none => rfl
    | some q =>
      rw [hl] at h
      obtain ⟨hne, hid⟩ := h
      have hq : OrderQueue.remove_order q o.id = q := by
        unfold OrderQueue.remove_order
        rw [List.eraseP_of_forall_not]
        · intro a ha
          simp [hid a ha]
      have hemp : q.is_empty = false := by
        unfold OrderQueue.is_empty
        simpa [List.isEmpty_iff] using hne
      simp [hq, hemp, bookSetQueue_self _ _ _ hl]

/-- Witness for C10: removing an absent id (999) from a non-empty level
at its price is a strict no-op returning `Ok(())`. -/
theorem c10_remove_absent_id_noop_witness :
    let e0 : Engine := ⟨[], [(100, ⟨[mkOrder 1 OrderSide.sell 1 100 1 OrderType.limit]⟩)]⟩
    let ghost := mkOrder 999 OrderSide.sell 1 100 7 OrderType.limit
    levelSafeForAbsent (sideBook e0 ghost.side) ghost.price ghost.id ∧
    e0.remove_order ghost = (Except.ok (), e0) :=
  ⟨by decide, c10_remove_absent_id_noop _ _ (by decide)⟩

/-- Claim C6: a submit whose price is ≤ 0 or whose quantity is ≤ 0 is
rejected by `CreateOrderRequest::validate` (run by the handler before
anything else), with a validation error, no created order reaching the
book, no trades, and both half-books unchanged. -/
theorem c6_validation_rejects_without_side_effects (e : Engine)
    (r : CreateOrderRequest) (gen clock : Nat → Nat) (u c : Nat)
    (h : r.price ≤ 0 ∨ r.quantity ≤ 0) :
    (∃ msg, (create_order e r gen clock u c).response = Except.error msg) ∧
    (create_order e r gen clock u c).engine = e ∧
    (create_order e r gen clock u c).trades = [] := by
  have hv : ∃ msg, r.validate = Except.error msg := by
    unfold CreateOrderRequest.validate
    split
    · exact ⟨_, rfl⟩
    · split
      · exact ⟨_, rfl⟩
      · split
        · exact ⟨_, rfl⟩
        · rename_i h1 h2 h3
          rcases h with h | h
          · exact absurd h h3
          · exact absurd h h2
  rcases hv with ⟨msg, hm⟩
  refine ⟨⟨msg, ?_⟩, ?_, ?_⟩ <;> simp [create_order, hm]

/-- Witness for C6: a request with price −1 on an empty engine is rejected
with no side effects. -/
theorem c6_validation_rejects_without_side_effects_witness :
    ((mkReq OrderSide.buy 1 (-1)).price ≤ 0 ∨ (mkReq OrderSide.buy 1 (-1)).quantity ≤ 0) ∧
    ((∃ msg, (create_order ⟨[], []⟩ (mkReq OrderSide.buy 1 (-1)) id id 0 0).response =
        Except.error msg) ∧
     (create_order ⟨[], []⟩ (mkReq OrderSide.buy 1 (-1)) id id 0 0).engine = ⟨[], []⟩ ∧
     (create_order ⟨[], []⟩ (mkReq OrderSide.buy 1 (-1)) id id 0 0).trades = []) :=
  ⟨by decide, c6_validation_rejects_without_side_effects _ _ id id 0 0 (by decide)⟩

/-- Claim C9 as stated is FALSE on the source: trade ids come from
`Uuid::new_v4()`, so two engine instances fed the identical command
sequence do not produce identical trade events — here the two uuid
supplies differ and the single emitted trade differs in its id (prices and
quantities agree). -/
theorem c9_counterexample :
    (runCommands pairCmds id id).trades ≠
      (runCommands pairCmds (fun n => n + 100) id).trades := by decide

/-- Claim C8's sequence clause is FALSE on the source: no function of the
returned snapshot recovers the engine sequence at snapshot time, because
the snapshot carries no sequence data at all (`models::OrderBook` has only
a wall-clock `last_updated`).  Two runs with different event counts — the
empty run and a four-command run that emits one trade and then empties the
book — produce identical snapshots. -/
theorem c8_counterexample :
    ¬ ∃ f : OrderBookSnap → Nat, ∀ (cmds : List Command) (gen clock : Nat → Nat)
        (sym : String) (t : Nat),
        f ((runCommands cmds gen clock).engine.get_order_book sym t) =
          specSequence cmds gen clock := by
  rintro ⟨f, hf⟩
  have h1 := hf [] id id "BTC" 0
  have h2 := hf seqCmds id id "BTC" 0
  have he : (runCommands seqCmds id id).engine.get_order_book "BTC" 0 =
      (runCommands ([] : List Command) id id).engine.get_order_book "BTC" 0 := by decide
  rw [he, h1] at h2
  exact absurd h2 (by decide)

theorem insertByCreated_perm (o : Order) : ∀ l : List Order,
    (insertByCreated o l).Perm (o :: l) := by
  intro l
  induction l with
  | nil => simp [insertByCreated]
  | cons x xs ih =>
    simp only [insertByCreated]
    split
    · exact List.Perm.refl _
    · exact (ih.cons x).trans (List.Perm.swap o x xs)

theorem sortByCreated_perm (l : List Order) : (sortByCreated l).Perm l := by
  suffices h : ∀ (l acc : List Order),
      (l.foldl (fun a o => insertByCreated o a) acc).Perm (acc ++ l) by
    simpa using h l []
  intro l
  induction l with
  | nil => intro acc; simp
  | cons x xs ih =>
    intro acc
    simp only [List.foldl_cons]
    refine (ih (insertByCreated x acc)).trans ?_
    have h1 : (insertByCreated x acc ++ xs).Perm ((x :: acc) ++ xs) :=
      (insertByCreated_perm x acc).append_right xs
    refine h1.trans ?_
    simpa using (List.perm_middle).symm

theorem mem_add_order {q : OrderQueue} {o x : Order} :
    x ∈ (q.add_order o).orders ↔ x ∈ q.orders ∨ x = o := by
  unfold OrderQueue.add_order
  rw [List.Perm.mem_iff (sortByCreated_perm _)]
  simp

theorem get_next_order_mem {q : OrderQueue} {m : Order} {q1 : OrderQueue}
    (h : q.get_next_order = some (m, q1)) :
    m ∈ q.orders ∧ ∀ x ∈ q1.orders, x ∈ q.orders := by
  unfold OrderQueue.get_next_order at h
  cases hl : q.orders.getLast? with
  | none => rw [hl] at h; exact absurd h (by simp)
  | some o =>
    rw [hl] at h
    simp only [Option.some.injEq, Prod.mk.injEq] at h
    obtain ⟨h1, h2⟩ := h
    subst h1
    constructor
    · exact List.mem_of_mem_getLast? hl
    · intro x hx
      rw [← h2] at hx
      exact (List.dropLast_sublist q.orders).subset hx

theorem bookLookup_mem_orders : ∀ {b : Book} {p : ℚ} {q : OrderQueue},
    bookLookup b p = some q → ∀ o ∈ q.orders, o ∈ bookOrders b := by
  intro b
  induction b with
  | nil => intro p q h; simp [bookLookup] at h
  | cons pq rest ih =>
    intro p q h o ho
    obtain ⟨pk, qk⟩ := pq
    simp only [bookLookup] at h
    simp only [bookOrders, List.map_cons, List.flatten_cons, List.mem_append]
    by_cases hx : p = pk
    · simp [hx] at h
      subst h
      exact Or.inl ho
    · simp [hx] at h
      exact Or.inr (by simpa [bookOrders] using ih h o ho)

theorem bookOrders_erase : ∀ {b : Book} {p : ℚ} {o : Order},
    o ∈ bookOrders (bookErase b p) → o ∈ bookOrders b := by
  intro b
  induction b with
  | nil => intro p o h; exact h
  | cons pq rest ih =>
    intro p o h
    obtain ⟨pk, qk⟩ := pq
    simp only [bookErase] at h
    simp only [bookOrders, List.map_cons, List.flatten_cons, List.mem_append]
    by_cases hx : p = pk
    · simp [hx] at h
      exact Or.inr (by simpa [bookOrders] using h)
    · simp only [if_neg hx] at h
      simp only [bookOrders, List.map_cons, List.flatten_cons, List.mem_append] at h
      rcases h with h | h
      · exact Or.inl h
      · exact Or.inr (ih (by simpa [bookOrders] using h))

theorem bookOrders_setQueue : ∀ {b : Book} {p : ℚ} {qn : OrderQueue} {o : Order},
    o ∈ bookOrders (bookSetQueue b p qn) → o ∈ qn.orders ∨ o ∈ bookOrders b := by
  intro b
  induction b with
  | nil => intro p qn o h; exact Or.inr h
  | cons pq rest ih =>
    intro p qn o h
    obtain ⟨pk, qk⟩ := pq
    simp only [bookSetQueue] at h
    by_cases hx : p = pk
    · simp only [if_pos hx] at h
      simp only [bookOrders, List.map_cons, List.flatten_cons, List.mem_append] at h
      rcases h with h | h
      · exact Or.inl h
      · exact Or.inr (by simp only [bookOrders, List.map_cons, List.flatten_cons,
          List.mem_append]; exact Or.inr h)
    · simp only [if_neg hx] at h
      simp only [bookOrders, List.map_cons, List.flatten_cons, List.mem_append] at h
      rcases h with h | h
      · exact Or.inr (by simp only [bookOrders, List.map_cons, List.flatten_cons,
          List.mem_append]; exact Or.inl h)
      · rcases ih (by simpa [bookOrders] using h) with h2 | h2
        · exact Or.inl h2
        · exact Or.inr (by simp only [bookOrders, List.map_cons, List.flatten_cons,
            List.mem_append]; exact Or.inr h2)

theorem wfBook_lookup {b : Book} (hw : wfBook b) :
    ∀ {p : ℚ} {q : OrderQueue}, bookLookup b p = some q → ∀ o ∈ q.orders, o.price = p := by
  induction b with
  | nil => intro p q h; simp [bookLookup] at h
  | cons pq rest ih =>
    intro p q h o ho
    obtain ⟨pk, qk⟩ := pq
    simp only [bookLookup] at h
    by_cases hx : p = pk
    · subst hx
      rw [if_pos rfl] at h
      injection h with h
      subst h
      exact hw (p, qk) (by simp) o ho
    · simp [hx] at h
      exact ih (fun x hx2 => hw x (List.mem_cons_of_mem _ hx2)) h o ho

theorem mem_bookErase : ∀ {b : Book} {p : ℚ} {pq : ℚ × OrderQueue},
    pq ∈ bookErase b p → pq ∈ b := by
  intro b
  induction b with
  | nil => intro p pq h; exact h
  | cons hd rest ih =>
    intro p pq h
    obtain ⟨pk, qk⟩ := hd
    simp only [bookErase] at h
    by_cases hx : p = pk
    · simp [hx] at h; exact List.mem_cons_of_mem _ h
    · simp only [if_neg hx, List.mem_cons] at h
      rcases h with h | h
      · simp [h]
      · exact List.mem_cons_of_mem _ (ih h)

theorem wfBook_erase {b : Book} {p : ℚ} (hw : wfBook b) : wfBook (bookErase b p) :=
  fun pq hpq => hw pq (mem_bookErase hpq)

theorem mem_bookSetQueue : ∀ {b : Book} {p : ℚ} {qn : OrderQueue} {pq : ℚ × OrderQueue},
    pq ∈ bookSetQueue b p qn → pq ∈ b ∨ pq = (p, qn) := by
  intro b
  induction b with
  | nil => intro p qn pq h; exact Or.inl h
  | cons hd rest ih =>
    intro p qn pq h
    obtain ⟨pk, qk⟩ := hd
    simp only [bookSetQueue] at h
    by_cases hx : p = pk
    · simp only [if_pos hx, List.mem_cons] at h
      rcases h with h | h
      · right; rw [h, hx]
      · left; exact List.mem_cons_of_mem _ h
    · simp only [if_neg hx, List.mem_cons] at h
      rcases h with h | h
      · left; simp [h]
      · rcases ih h with h2 | h2
        · left; exact List.mem_cons_of_mem _ h2
        · right; exact h2

theorem wfBook_setQueue {b : Book} {p : ℚ} {qn : OrderQueue} (hw : wfBook b)
    (hq : ∀ o ∈ qn.orders, o.price = p) : wfBook (bookSetQueue b p qn) := by
  intro pq hpq
  rcases mem_bookSetQueue hpq with h | h
  · exact hw pq h
  · subst h; exact hq

theorem idPricePairs_erase {b : Book} {p : ℚ} :
    ∀ pr ∈ idPricePairs (bookErase b p), pr ∈ idPricePairs b := by
  intro pr h
  simp only [idPricePairs, List.mem_map] at h ⊢
  obtain ⟨o, ho, rfl⟩ := h
  exact ⟨o, bookOrders_erase ho, rfl⟩

theorem idPricePairs_setQueue {b : Book} {p : ℚ} {qn : OrderQueue}
    (hq : ∀ o ∈ qn.orders, (o.id, o.price) ∈ idPricePairs b) :
    ∀ pr ∈ idPricePairs (bookSetQueue b p qn), pr ∈ idPricePairs b := by
  intro pr h
  simp only [idPricePairs, List.mem_map] at h
  obtain ⟨o, ho, rfl⟩ := h
  rcases bookOrders_setQueue ho with h2 | h2
  · exact hq o h2
  · simp only [idPricePairs, List.mem_map]
    exact ⟨o, h2, rfl⟩

theorem mem_idPricePairs {b : Book} {o : Order} (h : o ∈ bookOrders b) :
    (o.id, o.price) ∈ idPricePairs b := by
  simp only [idPricePairs, List.mem_map]
  exact ⟨o, h, rfl⟩

theorem matchBuyLoop_maker_price (buy : Order) (gen clock : Nat → Nat) :
    ∀ (fuel : Nat) (asks : Book) (remaining : ℚ) (u c : Nat), wfBook asks →
      ∀ t ∈ (matchBuyLoop buy gen clock fuel asks remaining u c).trades,
        t.price ≤ buy.price ∧ (t.orderId, t.price) ∈ idPricePairs asks := by
  intro fuel
  induction fuel with
  | zero =>
    intro asks remaining u c _ t ht
    simp [matchBuyLoop] at ht
  | succ n ih =>
    intro asks remaining u c hw t ht
    simp only [matchBuyLoop] at ht
    by_cases hrem : 0 < remaining
    case neg => simp [if_neg hrem] at ht
    case pos =>
    rw [if_pos hrem] at ht
    cases hfk : firstKey asks with
    | none => simp [hfk] at ht
    | some askPrice =>
    simp only [hfk] at ht
    by_cases hle : askPrice ≤ buy.price
    case neg => simp [if_neg hle] at ht
    case pos =>
    rw [if_pos hle] at ht
    cases hlk : bookLookup asks askPrice with
    | none => simp [hlk] at ht
    | some q =>
    simp only [hlk] at ht
    cases hnext : q.get_next_order with
    | none =>
      simp only [hnext] at ht
      obtain ⟨h1, h2⟩ := ih _ _ _ _ (wfBook_erase hw) t ht
      exact ⟨h1, idPricePairs_erase _ h2⟩
    | some mq =>
      obtain ⟨maker, q1⟩ := mq
      simp only [hnext] at ht
      obtain ⟨hmem, hsub⟩ := get_next_order_mem hnext
      have hmp : maker.price = askPrice := wfBook_lookup hw hlk maker hmem
      have hq1p : ∀ o ∈ q1.orders, o.price = askPrice :=
        fun o ho => wfBook_lookup hw hlk o (hsub o ho)
      have hq1pr : ∀ o ∈ q1.orders, (o.id, o.price) ∈ idPricePairs asks :=
        fun o ho => mem_idPricePairs (bookLookup_mem_orders hlk o (hsub o ho))
      by_cases htq : 0 < min remaining (maker.quantity - maker.filledQuantity)
      case neg =>
        simp only [if_neg htq] at ht
        have hwf2 : wfBook (bookSetQueue asks askPrice q1) := wfBook_setQueue hw hq1p
        obtain ⟨h1, h2⟩ := ih _ _ _ _ hwf2 t ht
        exact ⟨h1, idPricePairs_setQueue hq1pr _ h2⟩
      case pos =>
        simp only [if_pos htq] at ht
        rcases List.mem_cons.mp ht with rfl | ht2
        · refine ⟨hle, ?_⟩
          simpa [hmp] using mem_idPricePairs (bookLookup_mem_orders hlk maker hmem)
        · set maker1 := { maker with
            filledQuantity := maker.filledQuantity +
              min remaining (maker.quantity - maker.filledQuantity) } with hm1
          have hq2p : ∀ o ∈ (if maker1.filledQuantity < maker1.quantity then
              q1.add_order maker1 else q1).orders, o.price = askPrice := by
            intro o ho
            split at ho
            · rcases mem_add_order.mp ho with h | rfl
              · exact hq1p o h
              · simpa [hm1] using hmp
            · exact hq1p o ho
          have hq2pr : ∀ o ∈ (if maker1.filledQuantity < maker1.quantity then
              q1.add_order maker1 else q1).orders,
              (o.id, o.price) ∈ idPricePairs asks := by
            intro o ho
            split at ho
            · rcases mem_add_order.mp ho with h | rfl
              · exact hq1pr o h
              · simpa [hm1] using
                  mem_idPricePairs (bookLookup_mem_orders hlk maker hmem)
            · exact hq1pr o ho
          have hwf2 := wfBook_setQueue hw hq2p
          obtain ⟨h1, h2⟩ := ih _ _ _ _ hwf2 t ht2
          exact ⟨h1, idPricePairs_setQueue hq2pr _ h2⟩


theorem matchSellLoop_maker_price (sell : Order) (gen clock : Nat → Nat) :
    ∀ (fuel : Nat) (bids : Book) (remaining : ℚ) (u c : Nat), wfBook bids →
      ∀ t ∈ (matchSellLoop sell gen clock fuel bids remaining u c).trades,
        sell.price ≤ t.price ∧ (t.orderId, t.price) ∈ idPricePairs bids := by
  intro fuel
  induction fuel with
  | zero =>
    intro bids remaining u c _ t ht
    simp [matchSellLoop] at ht
  | succ n ih =>
    intro bids remaining u c hw t ht
    simp only [matchSellLoop] at ht
    by_cases hrem : 0 < remaining
    case neg => simp [if_neg hrem] at ht
    case pos =>
    rw [if_pos hrem] at ht
    cases hfk : lastKey bids with
    | none => simp [hfk] at ht
    | some bidPrice =>
    simp only [hfk] at ht
    by_cases hle : sell.price ≤ bidPrice
    case neg => simp [if_neg hle] at ht
    case pos =>
    rw [if_pos hle] at ht
    cases hlk : bookLookup bids bidPrice with
    | none => simp [hlk] at ht
    | some q =>
    simp only [hlk] at ht
    cases hnext : q.get_next_order with
    | none =>
      simp only [hnext] at ht
      obtain ⟨h1, h2⟩ := ih _ _ _ _ (wfBook_erase hw) t ht
      exact ⟨h1, idPricePairs_erase _ h2⟩
    | some mq =>
      obtain ⟨maker, q1⟩ := mq
      simp only [hnext] at ht
      obtain ⟨hmem, hsub⟩ := get_next_order_mem hnext
      have hmp : maker.price = bidPrice := wfBook_lookup hw hlk maker hmem
      have hq1p : ∀ o ∈ q1.orders, o.price = bidPrice :=
        fun o ho => wfBook_lookup hw hlk o (hsub o ho)
      have hq1pr : ∀ o ∈ q1.orders, (o.id, o.price) ∈ idPricePairs bids :=
        fun o ho => mem_idPricePairs (bookLookup_mem_orders hlk o (hsub o ho))
      by_cases htq : 0 < min remaining (maker.quantity - maker.filledQuantity)
      case neg =>
        simp only [if_neg htq] at ht
        have hwf2 : wfBook (bookSetQueue bids bidPrice q1) := wfBook_setQueue hw hq1p
        obtain ⟨h1, h2⟩ := ih _ _ _ _ hwf2 t ht
        exact ⟨h1, idPricePairs_setQueue hq1pr _ h2⟩
      case pos =>
        simp only [if_pos htq] at ht
        rcases List.mem_cons.mp ht with rfl | ht2
        · refine ⟨hle, ?_⟩
          simpa [hmp] using mem_idPricePairs (bookLookup_mem_orders hlk maker hmem)
        · set maker1 := { maker with
            filledQuantity := maker.filledQuantity +
              min remaining (maker.quantity - maker.filledQuantity) } with hm1
          have hq2p : ∀ o ∈ (if maker1.filledQuantity < maker1.quantity then
              q1.add_order maker1 else q1).orders, o.price = bidPrice := by
            intro o ho
            split at ho
            · rcases mem_add_order.mp ho with h | rfl
              · exact hq1p o h
              · simpa [hm1] using hmp
            · exact hq1p o ho
          have hq2pr : ∀ o ∈ (if maker1.filledQuantity < maker1.quantity then
              q1.add_order maker1 else q1).orders,
              (o.id, o.price) ∈ idPricePairs bids := by
            intro o ho
            split at ho
            · rcases mem_add_order.mp ho with h | rfl
              · exact hq1pr o h
              · simpa [hm1] using
                  mem_idPricePairs (bookLookup_mem_orders hlk maker hmem)
            · exact hq1pr o ho
          have hwf2 := wfBook_setQueue hw hq2p
          obtain ⟨h1, h2⟩ := ih _ _ _ _ hwf2 t ht2
          exact ⟨h1, idPricePairs_setQueue hq2pr _ h2⟩

/-- Claim C4: every trade emitted during crossing executes at the maker's
limit price, never at the taker's.  For a buy taker, each trade's price is
the (id, limit-price) pair of a maker resting in the ask book — i.e. the
price of the ask level that maker rests at, since `wfBook` states the
engine's placement invariant that an order rests under its own limit
price — and is ≤ the taker's limit (price improvement); symmetrically a
sell taker trades at resting bid prices ≥ its limit. -/
theorem c4_trade_price_is_makers_limit (buy sell : Order) (asks bids : Book)
    (gen clock : Nat → Nat) (u c : Nat) (hwa : wfBook asks) (hwb : wfBook bids) :
    (∀ t ∈ (match_buy_order buy asks gen clock u c).trades,
        t.price ≤ buy.price ∧ (t.orderId, t.price) ∈ idPricePairs asks) ∧
    (∀ t ∈ (match_sell_order sell bids gen clock u c).trades,
        sell.price ≤ t.price ∧ (t.orderId, t.price) ∈ idPricePairs bids) :=
  ⟨fun t ht => matchBuyLoop_maker_price buy gen clock _ asks buy.quantity u c hwa t ht,
   fun t ht => matchSellLoop_maker_price sell gen clock _ bids sell.quantity u c hwb t ht⟩

theorem c4_trade_price_is_makers_limit_witness :
    wfBook [((100 : ℚ), ⟨[mkOrder 1 OrderSide.sell 1 100 1 OrderType.limit]⟩)] ∧
    wfBook [((90 : ℚ), ⟨[mkOrder 2 OrderSide.buy 1 90 1 OrderType.limit]⟩)] ∧
    ((∀ t ∈ (match_buy_order (mkOrder 10 OrderSide.buy 1 100 2 OrderType.limit)
          [((100 : ℚ), ⟨[mkOrder 1 OrderSide.sell 1 100 1 OrderType.limit]⟩)] id id 0 0).trades,
        t.price ≤ (mkOrder 10 OrderSide.buy 1 100 2 OrderType.limit).price ∧
        (t.orderId, t.price) ∈
          idPricePairs [((100 : ℚ), ⟨[mkOrder 1 OrderSide.sell 1 100 1 OrderType.limit]⟩)]) ∧
     (∀ t ∈ (match_sell_order (mkOrder 11 OrderSide.sell 1 90 2 OrderType.limit)
          [((90 : ℚ), ⟨[mkOrder 2 OrderSide.buy 1 90 1 OrderType.limit]⟩)] id id 0 0).trades,
        (mkOrder 11 OrderSide.sell 1 90 2 OrderType.limit).price ≤ t.price ∧
        (t.orderId, t.price) ∈
          idPricePairs [((90 : ℚ), ⟨[mkOrder 2 OrderSide.buy 1 90 1 OrderType.limit]⟩)])) :=
  ⟨by decide, by decide,
   c4_trade_price_is_makers_limit _ _ _ _ id id 0 0 (by decide) (by decide)⟩

theorem bookLookup_of_mem : ∀ {b : Book}, (b.map Prod.fst).Pairwise (· ≠ ·) →
    ∀ {pq : ℚ × OrderQueue}, pq ∈ b → bookLookup b pq.1 = some pq.2 := by
  intro b
  induction b with
  | nil => intro _ pq h; simp at h
  | cons hd rest ih =>
    intro hnd pq h
    obtain ⟨p, q⟩ := hd
    simp only [List.map_cons, List.pairwise_cons] at hnd
    rcases List.mem_cons.mp h with rfl | h2
    · simp [bookLookup]
    · have hne : pq.1 ≠ p := by
        intro hc
        exact hnd.1 pq.1 (List.mem_map_of_mem Prod.fst h2) hc.symm
      simp only [bookLookup, if_neg hne]
      exact ih hnd.2 h2

/-- Claim C8 (amended): `get_order_book` returns up to 10 levels per side,
bids in strictly descending and asks in strictly ascending price order
(given the B-tree key invariant), each returned level's quantity equal to
the sum of `quantity − filled_quantity` over the orders queued at that
price and its order_count equal to the number of queued orders; the
snapshot carries the wall-clock `last_updated` reading taken at snapshot
time — not an engine sequence, which the source does not maintain (see the
counterexample). -/
theorem c8_depth_snapshot (e : Engine) (sym : String) (now : Nat)
    (hb : sortedBook e.bids) (ha : sortedBook e.asks) :
    (e.get_order_book sym now).bids.length ≤ 10 ∧
    (e.get_order_book sym now).asks.length ≤ 10 ∧
    ((e.get_order_book sym now).bids.map OrderBookEntry.price).Pairwise (· > ·) ∧
    ((e.get_order_book sym now).asks.map OrderBookEntry.price).Pairwise (· < ·) ∧
    (∀ en ∈ (e.get_order_book sym now).bids, ∃ q, bookLookup e.bids en.price = some q ∧
        en.quantity = (q.orders.map (fun o => o.quantity - o.filledQuantity)).sum ∧
        en.orderCount = q.orders.length) ∧
    (∀ en ∈ (e.get_order_book sym now).asks, ∃ q, bookLookup e.asks en.price = some q ∧
        en.quantity = (q.orders.map (fun o => o.quantity - o.filledQuantity)).sum ∧
        en.orderCount = q.orders.length) ∧
    (e.get_order_book sym now).lastUpdated = now := by
  have hbp : (e.bids.map Prod.fst).Pairwise (· < ·) := hb
  have hap : (e.asks.map Prod.fst).Pairwise (· < ·) := ha
  refine ⟨?_, ?_, ?_, ?_, ?_, ?_, rfl⟩
  · simp only [Engine.get_order_book, List.length_map, List.length_take]
    exact min_le_left _ _
  · simp only [Engine.get_order_book, List.length_map, List.length_take]
    exact min_le_left _ _
  · have hfun : (OrderBookEntry.price ∘ levelEntry) = (Prod.fst : ℚ × OrderQueue → ℚ) :=
      funext fun pq => rfl
    have hmp : ((e.bids.reverse.take 10).map levelEntry).map OrderBookEntry.price =
        (e.bids.map Prod.fst).reverse.take 10 := by
      simp [List.map_take, List.map_reverse, List.map_map, hfun]
    simp only [Engine.get_order_book, hmp]
    refine List.Pairwise.sublist (List.take_sublist _ _) ?_
    exact (List.pairwise_reverse).mpr hbp
  · have hfun : (OrderBookEntry.price ∘ levelEntry) = (Prod.fst : ℚ × OrderQueue → ℚ) :=
      funext fun pq => rfl
    have hmp : ((e.asks.take 10).map levelEntry).map OrderBookEntry.price =
        (e.asks.map Prod.fst).take 10 := by
      simp [List.map_take, List.map_map, hfun]
    simp only [Engine.get_order_book, hmp]
    exact List.Pairwise.sublist (List.take_sublist _ _) hap
  · intro en hen
    simp only [Engine.get_order_book, List.mem_map] at hen
    obtain ⟨pq, hpq, rfl⟩ := hen
    have hpq2 : pq ∈ e.bids :=
      List.mem_reverse.mp ((List.take_sublist _ _).subset hpq)
    exact ⟨pq.2, bookLookup_of_mem (hbp.imp ne_of_lt) hpq2, rfl, rfl⟩
  · intro en hen
    simp only [Engine.get_order_book, List.mem_map] at hen
    obtain ⟨pq, hpq, rfl⟩ := hen
    have hpq2 : pq ∈ e.asks := (List.take_sublist _ _).subset hpq
    exact ⟨pq.2, bookLookup_of_mem (hap.imp ne_of_lt) hpq2, rfl, rfl⟩

theorem c8_depth_snapshot_witness :
    let e0 : Engine := ⟨[((90 : ℚ), ⟨[mkOrder 1 OrderSide.buy 1 90 1 OrderType.limit]⟩),
                         ((95 : ℚ), ⟨[mkOrder 2 OrderSide.buy 2 95 2 OrderType.limit]⟩)],
                        [((100 : ℚ), ⟨[mkOrder 3 OrderSide.sell 1 100 3 OrderType.limit]⟩)]⟩
    sortedBook e0.bids ∧ sortedBook e0.asks ∧
    ((e0.get_order_book "BTC" 7).bids.length ≤ 10 ∧
     (e0.get_order_book "BTC" 7).asks.length ≤ 10 ∧
     ((e0.get_order_book "BTC" 7).bids.map OrderBookEntry.price).Pairwise (· > ·) ∧
     ((e0.get_order_book "BTC" 7).asks.map OrderBookEntry.price).Pairwise (· < ·) ∧
     (∀ en ∈ (e0.get_order_book "BTC" 7).bids, ∃ q, bookLookup e0.bids en.price = some q ∧
         en.quantity = (q.orders.map (fun o => o.quantity - o.filledQuantity)).sum ∧
         en.orderCount = q.orders.length) ∧
     (∀ en ∈ (e0.get_order_book "BTC" 7).asks, ∃ q, bookLookup e0.asks en.price = some q ∧
         en.quantity = (q.orders.map (fun o => o.quantity - o.filledQuantity)).sum ∧
         en.orderCount = q.orders.length) ∧
     (e0.get_order_book "BTC" 7).lastUpdated = 7) :=
  ⟨by decide, by decide, c8_depth_snapshot _ "BTC" 7 (by decide) (by decide)⟩


theorem insertByCreated_rename (g c : Nat → Nat) (hc : StrictMono c) (o : Order) :
    ∀ l : List Order, insertByCreated (renameOrder g c o) (l.map (renameOrder g c)) =
      (insertByCreated o l).map (renameOrder g c) := by
  intro l
  induction l with
  | nil => rfl
  | cons x xs ih =>
    simp only [List.map_cons, insertByCreated]
    by_cases h : o.createdAt < x.createdAt
    · rw [if_pos (show (renameOrder g c o).createdAt < (renameOrder g c x).createdAt from hc h),
        if_pos h, List.map_cons, List.map_cons]
    · rw [if_neg (show ¬ (renameOrder g c o).createdAt < (renameOrder g c x).createdAt from
        fun hcon => h (hc.lt_iff_lt.mp hcon)), if_neg h, List.map_cons, ih]

theorem sortByCreated_rename (g c : Nat → Nat) (hc : StrictMono c) (l : List Order) :
    sortByCreated (l.map (renameOrder g c)) = (sortByCreated l).map (renameOrder g c) := by
  suffices h : ∀ (l acc : List Order),
      (l.map (renameOrder g c)).foldl (fun a o => insertByCreated o a)
          (acc.map (renameOrder g c)) =
        (l.foldl (fun a o => insertByCreated o a) acc).map (renameOrder g c) by
    simpa using h l []
  intro l
  induction l with
  | nil => intro acc; simp
  | cons x xs ih =>
    intro acc
    simp only [List.map_cons, List.foldl_cons]
    rw [insertByCreated_rename g c hc, ih]

theorem add_order_rename (g c : Nat → Nat) (hc : StrictMono c) (q : OrderQueue) (o : Order) :
    (renameQueue g c q).add_order (renameOrder g c o) = renameQueue g c (q.add_order o) := by
  unfold OrderQueue.add_order renameQueue
  simp only [OrderQueue.mk.injEq]
  rw [show (q.orders.map (renameOrder g c)) ++ [renameOrder g c o] =
    (q.orders ++ [o]).map (renameOrder g c) by simp]
  exact sortByCreated_rename g c hc _

theorem get_next_order_rename (g c : Nat → Nat) (q : OrderQueue) :
    (renameQueue g c q).get_next_order =
      q.get_next_order.map (fun mq => (renameOrder g c mq.1, renameQueue g c mq.2)) := by
  unfold OrderQueue.get_next_order renameQueue
  simp only [List.getLast?_map]
  cases q.orders.getLast? <;> simp [List.map_dropLast]

theorem remove_order_rename (g c : Nat → Nat) (hg : Function.Injective g)
    (q : OrderQueue) (oid : Nat) :
    (renameQueue g c q).remove_order (g oid) = renameQueue g c (q.remove_order oid) := by
  unfold OrderQueue.remove_order renameQueue
  simp only [OrderQueue.mk.injEq]
  have hp : ((fun o : Order => o.id == g oid) ∘ renameOrder g c) =
      (fun o : Order => o.id == oid) := by
    funext o
    by_cases h : o.id = oid
    · simp [renameOrder, Function.comp, h]
    · have h2 : g o.id ≠ g oid := fun hcon => h (hg hcon)
      simp [renameOrder, Function.comp, h, h2]
  rw [List.eraseP_map, hp]

theorem is_empty_rename (g c : Nat → Nat) (q : OrderQueue) :
    (renameQueue g c q).is_empty = q.is_empty := by
  unfold OrderQueue.is_empty renameQueue
  cases q.orders <;> simp

theorem bookLookup_rename (g c : Nat → Nat) : ∀ (b : Book) (x : ℚ),
    bookLookup (renameBook g c b) x = (bookLookup b x).map (renameQueue g c) := by
  intro b
  induction b with
  | nil => intro x; rfl
  | cons pq rest ih =>
    intro x
    obtain ⟨p, q⟩ := pq
    simp only [renameBook, List.map_cons, bookLookup]
    by_cases h : x = p
    · simp [h]
    · simpa [h] using ih x

theorem bookSetQueue_rename (g c : Nat → Nat) : ∀ (b : Book) (x : ℚ) (qn : OrderQueue),
    bookSetQueue (renameBook g c b) x (renameQueue g c qn) =
      renameBook g c (bookSetQueue b x qn) := by
  intro b
  induction b with
  | nil => intro x qn; rfl
  | cons pq rest ih =>
    intro x qn
    obtain ⟨p, q⟩ := pq
    simp only [renameBook, List.map_cons, bookSetQueue]
    by_cases h : x = p
    · simp [h]
    · simpa [h, renameBook] using ih x qn

theorem bookErase_rename (g c : Nat → Nat) : ∀ (b : Book) (x : ℚ),
    bookErase (renameBook g c b) x = renameBook g c (bookErase b x) := by
  intro b
  induction b with
  | nil => intro x; rfl
  | cons pq rest ih =>
    intro x
    obtain ⟨p, q⟩ := pq
    simp only [renameBook, List.map_cons, bookErase]
    by_cases h : x = p
    · simp [h, renameBook]
    · simpa [h, renameBook] using ih x

theorem firstKey_rename (g c : Nat → Nat) (b : Book) :
    firstKey (renameBook g c b) = firstKey b := by
  unfold firstKey renameBook
  cases b <;> simp

theorem lastKey_rename (g c : Nat → Nat) (b : Book) :
    lastKey (renameBook g c b) = lastKey b := by
  unfold lastKey renameBook
  rw [List.getLast?_map]
  cases b.getLast? <;> simp

theorem bookAddOrder_rename (g c : Nat → Nat) (hc : StrictMono c) :
    ∀ (b : Book) (x : ℚ) (o : Order),
    bookAddOrder (renameBook g c b) x (renameOrder g c o) =
      renameBook g c (bookAddOrder b x o) := by
  intro b
  induction b with
  | nil =>
    intro x o
    have hnil : OrderQueue.add_order ⟨[]⟩ (renameOrder g c o) =
        renameQueue g c (OrderQueue.add_order ⟨[]⟩ o) := add_order_rename g c hc ⟨[]⟩ o
    simp only [renameBook, List.map_nil, bookAddOrder, List.map_cons, hnil]
  | cons pq rest ih =>
    intro x o
    obtain ⟨p, q⟩ := pq
    simp only [renameBook, List.map_cons, bookAddOrder]
    by_cases h : x = p
    · rw [if_pos h, if_pos h, add_order_rename g c hc]
      simp [renameBook]
    · rw [if_neg h, if_neg h]
      by_cases h2 : x < p
      · have hnil : OrderQueue.add_order ⟨[]⟩ (renameOrder g c o) =
            renameQueue g c (OrderQueue.add_order ⟨[]⟩ o) := add_order_rename g c hc ⟨[]⟩ o
        rw [if_pos h2, if_pos h2, hnil]
        simp [renameBook]
      · rw [if_neg h2, if_neg h2]
        simpa [renameBook] using ih x o

theorem totalOrders_rename (g c : Nat → Nat) (b : Book) :
    totalOrders (renameBook g c b) = totalOrders b := by
  simp [totalOrders, renameBook, List.map_map, renameQueue, Function.comp_def,
    List.length_map]

theorem length_rename (g c : Nat → Nat) (b : Book) :
    (renameBook g c b).length = b.length := by
  simp [renameBook]

theorem renameOrder_id (g c : Nat → Nat) (o : Order) : (renameOrder g c o).id = g o.id := rfl

theorem renameOrder_userId (g c : Nat → Nat) (o : Order) :
    (renameOrder g c o).userId = g o.userId := rfl

theorem renameOrder_symbol (g c : Nat → Nat) (o : Order) :
    (renameOrder g c o).symbol = o.symbol := rfl

theorem renameOrder_side (g c : Nat → Nat) (o : Order) :
    (renameOrder g c o).side = o.side := rfl

theorem renameOrder_quantity (g c : Nat → Nat) (o : Order) :
    (renameOrder g c o).quantity = o.quantity := rfl

theorem renameOrder_price (g c : Nat → Nat) (o : Order) :
    (renameOrder g c o).price = o.price := rfl

theorem renameOrder_orderType (g c : Nat → Nat) (o : Order) :
    (renameOrder g c o).orderType = o.orderType := rfl

theorem renameOrder_status (g c : Nat → Nat) (o : Order) :
    (renameOrder g c o).status = o.status := rfl

theorem renameOrder_filledQuantity (g c : Nat → Nat) (o : Order) :
    (renameOrder g c o).filledQuantity = o.filledQuantity := rfl

theorem renameOrder_createdAt (g c : Nat → Nat) (o : Order) :
    (renameOrder g c o).createdAt = c o.createdAt := rfl

theorem renameOrder_updatedAt (g c : Nat → Nat) (o : Order) :
    (renameOrder g c o).updatedAt = c o.updatedAt := rfl

theorem matchBuyLoop_rename (g c : Nat → Nat)
    (hc : StrictMono c) (buy : Order) :
    ∀ (fuel : Nat) (asks : Book) (remaining : ℚ) (u cc : Nat),
      matchBuyLoop (renameOrder g c buy) g c fuel (renameBook g c asks) remaining u cc =
        renameMatchResult g c (matchBuyLoop buy id id fuel asks remaining u cc) := by
  intro fuel
  induction fuel with
  | zero => intro asks remaining u cc; rfl
  | succ n ih =>
    intro asks remaining u cc
    simp only [matchBuyLoop]
    by_cases hrem : 0 < remaining
    case neg => simp [if_neg hrem, renameMatchResult]
    case pos =>
    rw [if_pos hrem, if_pos hrem, firstKey_rename]
    cases hfk : firstKey asks with
    | none => simp [renameMatchResult]
    | some askPrice =>
    simp only [renameOrder_price]
    by_cases hle : askPrice ≤ buy.price
    case neg => simp [if_neg hle, renameMatchResult]
    case pos =>
    rw [if_pos hle, if_pos hle, bookLookup_rename]
    cases hlk : bookLookup asks askPrice with
    | none => simp [renameMatchResult]
    | some q =>
    simp only [Option.map_some', get_next_order_rename]
    cases hnx : q.get_next_order with
    | none =>
      simp only [Option.map_none']
      rw [bookErase_rename]
      exact ih _ _ _ _
    | some mq =>
      obtain ⟨maker, q1⟩ := mq
      simp only [Option.map_some', renameOrder_quantity, renameOrder_filledQuantity,
        renameOrder_id, renameOrder_userId, renameOrder_symbol, renameOrder_side,
        renameOrder_price, renameOrder_orderType, renameOrder_status,
        renameOrder_createdAt, renameOrder_updatedAt]
      by_cases htq : 0 < min remaining (maker.quantity - maker.filledQuantity)
      case neg =>
        rw [if_neg htq, if_neg htq, bookSetQueue_rename, ih]
      case pos =>
        rw [if_pos htq, if_pos htq]
        have hmk : ∀ x : ℚ,
            (⟨g maker.id, g maker.userId, maker.symbol, maker.side, maker.quantity,
              maker.price, maker.orderType, maker.status, x, c maker.createdAt,
              c maker.updatedAt⟩ : Order) =
              renameOrder g c { maker with filledQuantity := x } := fun _ => rfl
        simp only [hmk, add_order_rename g c hc, ← apply_ite (renameQueue g c),
          bookSetQueue_rename, ih, renameMatchResult, renameTrade, List.map_cons, id_eq]

theorem matchSellLoop_rename (g c : Nat → Nat) (hc : StrictMono c) (sell : Order) :
    ∀ (fuel : Nat) (bids : Book) (remaining : ℚ) (u cc : Nat),
      matchSellLoop (renameOrder g c sell) g c fuel (renameBook g c bids) remaining u cc =
        renameMatchResult g c (matchSellLoop sell id id fuel bids remaining u cc) := by
  intro fuel
  induction fuel with
  | zero => intro bids remaining u cc; rfl
  | succ n ih =>
    intro bids remaining u cc
    simp only [matchSellLoop]
    by_cases hrem : 0 < remaining
    case neg => simp [if_neg hrem, renameMatchResult]
    case pos =>
    rw [if_pos hrem, if_pos hrem, lastKey_rename]
    cases hfk : lastKey bids with
    | none => simp [renameMatchResult]
    | some bidPrice =>
    simp only [renameOrder_price]
    by_cases hle : sell.price ≤ bidPrice
    case neg => simp [if_neg hle, renameMatchResult]
    case pos =>
    rw [if_pos hle, if_pos hle, bookLookup_rename]
    cases hlk : bookLookup bids bidPrice with
    | none => simp [renameMatchResult]
    | some q =>
    simp only [Option.map_some', get_next_order_rename]
    cases hnx : q.get_next_order with
    | none =>
      simp only [Option.map_none']
      rw [bookErase_rename]
      exact ih _ _ _ _
    | some mq =>
      obtain ⟨maker, q1⟩ := mq
      simp only [Option.map_some', renameOrder_quantity, renameOrder_filledQuantity,
        renameOrder_id, renameOrder_userId, renameOrder_symbol, renameOrder_side,
        renameOrder_price, renameOrder_orderType, renameOrder_status,
        renameOrder_createdAt, renameOrder_updatedAt]
      by_cases htq : 0 < min remaining (maker.quantity - maker.filledQuantity)
      case neg =>
        rw [if_neg htq, if_neg htq, bookSetQueue_rename, ih]
      case pos =>
        rw [if_pos htq, if_pos htq]
        have hmk : ∀ x : ℚ,
            (⟨g maker.id, g maker.userId, maker.symbol, maker.side, maker.quantity,
              maker.price, maker.orderType, maker.status, x, c maker.createdAt,
              c maker.updatedAt⟩ : Order) =
              renameOrder g c { maker with filledQuantity := x } := fun _ => rfl
        simp only [hmk, add_order_rename g c hc, ← apply_ite (renameQueue g c),
          bookSetQueue_rename, ih, renameMatchResult, renameTrade, List.map_cons, id_eq]

theorem match_buy_order_rename (g c : Nat → Nat) (hc : StrictMono c) (buy : Order)
    (asks : Book) (u cc : Nat) :
    match_buy_order (renameOrder g c buy) (renameBook g c asks) g c u cc =
      renameMatchResult g c (match_buy_order buy asks id id u cc) := by
  unfold match_buy_order
  rw [totalOrders_rename, length_rename, renameOrder_quantity]
  exact matchBuyLoop_rename g c hc buy _ asks buy.quantity u cc

theorem match_sell_order_rename (g c : Nat → Nat) (hc : StrictMono c) (sell : Order)
    (bids : Book) (u cc : Nat) :
    match_sell_order (renameOrder g c sell) (renameBook g c bids) g c u cc =
      renameMatchResult g c (match_sell_order sell bids id id u cc) := by
  unfold match_sell_order
  rw [totalOrders_rename, length_rename, renameOrder_quantity]
  exact matchSellLoop_rename g c hc sell _ bids sell.quantity u cc

theorem add_order_rename_engine (g c : Nat → Nat) (hc : StrictMono c) (e : Engine)
    (o : Order) (u cc : Nat) :
    (renameEngine g c e).add_order (renameOrder g c o) g c u cc =
      renameAddResult g c (e.add_order o id id u cc) := by
  unfold Engine.add_order renameEngine
  cases hs : o.side
  case buy =>
    simp only [renameOrder_side, hs]
    rw [match_buy_order_rename g c hc]
    rw [renameOrder_quantity, renameOrder_filledQuantity]
    by_cases h : o.filledQuantity < o.quantity
    case pos =>
      rw [if_pos h, if_pos h]
      have hmk : (⟨g o.id, g o.userId, o.symbol, OrderSide.buy,
          o.quantity - o.filledQuantity, o.price, o.orderType, o.status, 0,
          c o.createdAt, c o.updatedAt⟩ : Order) =
          renameOrder g c ⟨o.id, o.userId, o.symbol, OrderSide.buy,
            o.quantity - o.filledQuantity, o.price, o.orderType, o.status, 0,
            o.createdAt, o.updatedAt⟩ := rfl
      simp only [renameOrder_id, renameOrder_userId, renameOrder_symbol, renameOrder_side,
        renameOrder_quantity, renameOrder_price, renameOrder_orderType, renameOrder_status,
        renameOrder_filledQuantity, renameOrder_createdAt, renameOrder_updatedAt, hs, hmk,
        bookAddOrder_rename g c hc, renameAddResult, renameMatchResult, renameEngine]
    case neg =>
      rw [if_neg h, if_neg h]
      simp [renameAddResult, renameMatchResult, renameEngine]
  case sell =>
    simp only [renameOrder_side, hs]
    rw [match_sell_order_rename g c hc]
    rw [renameOrder_quantity, renameOrder_filledQuantity]
    by_cases h : o.filledQuantity < o.quantity
    case pos =>
      rw [if_pos h, if_pos h]
      have hmk : (⟨g o.id, g o.userId, o.symbol, OrderSide.sell,
          o.quantity - o.filledQuantity, o.price, o.orderType, o.status, 0,
          c o.createdAt, c o.updatedAt⟩ : Order) =
          renameOrder g c ⟨o.id, o.userId, o.symbol, OrderSide.sell,
            o.quantity - o.filledQuantity, o.price, o.orderType, o.status, 0,
            o.createdAt, o.updatedAt⟩ := rfl
      simp only [renameOrder_id, renameOrder_userId, renameOrder_symbol, renameOrder_side,
        renameOrder_quantity, renameOrder_price, renameOrder_orderType, renameOrder_status,
        renameOrder_filledQuantity, renameOrder_createdAt, renameOrder_updatedAt, hs, hmk,
        bookAddOrder_rename g c hc, renameAddResult, renameMatchResult, renameEngine]
    case neg =>
      rw [if_neg h, if_neg h]
      simp [renameAddResult, renameMatchResult, renameEngine]

theorem remove_order_rename_engine (g c : Nat → Nat) (hg : Function.Injective g)
    (e : Engine) (o : Order) :
    (renameEngine g c e).remove_order (renameOrder g c o) =
      ((e.remove_order o).1, renameEngine g c (e.remove_order o).2) := by
  unfold Engine.remove_order renameEngine
  cases hs : o.side
  case buy =>
    simp only [renameOrder_side, renameOrder_price, renameOrder_id, hs, bookLookup_rename]
    cases hl : bookLookup e.bids o.price with
    | none => simp
    | some q =>
      simp only [Option.map_some']
      rw [remove_order_rename g c hg, is_empty_rename]
      by_cases hq : (q.remove_order o.id).is_empty
      · simp only [hq, if_true, bookErase_rename]
      · simp only [hq, if_false, Bool.false_eq_true, bookSetQueue_rename]
  case sell =>
    simp only [renameOrder_side, renameOrder_price, renameOrder_id, hs, bookLookup_rename]
    cases hl : bookLookup e.asks o.price with
    | none => simp
    | some q =>
      simp only [Option.map_some']
      rw [remove_order_rename g c hg, is_empty_rename]
      by_cases hq : (q.remove_order o.id).is_empty
      · simp only [hq, if_true, bookErase_rename]
      · simp only [hq, if_false, Bool.false_eq_true, bookSetQueue_rename]

theorem create_order_rename (g c : Nat → Nat) (hc : StrictMono c) (e : Engine)
    (r : CreateOrderRequest) (u cc : Nat) :
    create_order (renameEngine g c e) r g c u cc =
      renameCreateResult g c (create_order e r id id u cc) := by
  unfold create_order
  cases hv : r.validate with
  | error msg => simp [renameCreateResult, Except.map]
  | ok _ =>
    have hmk : (⟨g u, g (u + 1), r.symbol, r.side, r.quantity, r.price, r.orderType,
        OrderStatus.new, 0, c cc, c (cc + 1)⟩ : Order) =
        renameOrder g c ⟨id u, id (u + 1), r.symbol, r.side, r.quantity, r.price,
          r.orderType, OrderStatus.new, 0, id cc, id (cc + 1)⟩ := rfl
    simp only [hmk]
    rw [add_order_rename_engine g c hc]
    simp [renameCreateResult, renameAddResult, Except.map]

theorem stepCommand_rename (g c : Nat → Nat) (hg : Function.Injective g)
    (hc : StrictMono c) (s : RunState) (cmd : Command) :
    stepCommand g c (renameRunState g c s) cmd =
      renameRunState g c (stepCommand id id s cmd) := by
  cases cmd with
  | submit r =>
    simp only [stepCommand]
    have he : (renameRunState g c s).engine = renameEngine g c s.engine := rfl
    have hu : (renameRunState g c s).u = s.u := rfl
    have hcc : (renameRunState g c s).c = s.c := rfl
    rw [he, hu, hcc, create_order_rename g c hc]
    cases hr : (create_order s.engine r id id s.u s.c).response with
    | error msg =>
      simp [renameCreateResult, hr, Except.map, renameRunState, List.map_append]
    | ok o =>
      simp [renameCreateResult, hr, Except.map, renameRunState, List.map_append]
  | cancel n =>
    simp only [stepCommand]
    have hsub : (renameRunState g c s).submitted = s.submitted.map (renameOrder g c) := rfl
    rw [hsub, List.getElem?_map]
    cases hn : s.submitted[n]? with
    | none => rfl
    | some o =>
      simp only [Option.map_some']
      have he : (renameRunState g c s).engine = renameEngine g c s.engine := rfl
      rw [he, remove_order_rename_engine g c hg]
      rfl

theorem runCommands_rename (g c : Nat → Nat) (hg : Function.Injective g)
    (hc : StrictMono c) (cmds : List Command) :
    runCommands cmds g c = renameRunState g c (runCommands cmds id id) := by
  unfold runCommands
  suffices h : ∀ (l : List Command) (s : RunState),
      l.foldl (stepCommand g c) (renameRunState g c s) =
        renameRunState g c (l.foldl (stepCommand id id) s) by
    calc cmds.foldl (stepCommand g c) initState
        = cmds.foldl (stepCommand g c) (renameRunState g c initState) := rfl
      _ = renameRunState g c (cmds.foldl (stepCommand id id) initState) := h cmds initState
  intro l
  induction l with
  | nil => intro s; rfl
  | cons cmd rest ih =>
    intro s
    simp only [List.foldl_cons]
    rw [stepCommand_rename g c hg hc, ih]

/-- Claim C9 (amended): two engine instances started from the same empty
state and fed the identical command sequence produce the same trade
sequence UP TO the freshly drawn trade/order ids and timestamps: with each
instance's uuid supply injective and its clock strictly increasing, the
two runs emit the same number of trades with pointwise identical symbol,
price and quantity (the ids and execution timestamps differ, as the
counterexample shows they must). -/
theorem c9_deterministic_modulo_ids (cmds : List Command) (g1 c1 g2 c2 : Nat → Nat)
    (hg1 : Function.Injective g1) (hc1 : StrictMono c1)
    (hg2 : Function.Injective g2) (hc2 : StrictMono c2) :
    (runCommands cmds g1 c1).trades.map tradeObs =
      (runCommands cmds g2 c2).trades.map tradeObs := by
  have hobs : ∀ g c : Nat → Nat, tradeObs ∘ renameTrade g c = tradeObs :=
    fun _ _ => funext fun t => rfl
  rw [runCommands_rename g1 c1 hg1 hc1, runCommands_rename g2 c2 hg2 hc2]
  show ((runCommands cmds id id).trades.map (renameTrade g1 c1)).map tradeObs =
    ((runCommands cmds id id).trades.map (renameTrade g2 c2)).map tradeObs
  rw [List.map_map, List.map_map, hobs, hobs]

/-- Witness for C9: two concrete instances with different injective uuid
supplies and different strictly increasing clocks agree on the observable
trade sequence of `pairCmds`. -/
theorem c9_deterministic_modulo_ids_witness :
    Function.Injective (id : Nat → Nat) ∧ StrictMono (id : Nat → Nat) ∧
    Function.Injective (fun n : Nat => n + 100) ∧ StrictMono (fun n : Nat => n + 100) ∧
    (runCommands pairCmds id id).trades.map tradeObs =
      (runCommands pairCmds (fun n => n + 100) (fun n => n + 100)).trades.map tradeObs :=
  have hinj : Function.Injective (fun n : Nat => n + 100) := fun a b h => by
    have h2 : a + 100 = b + 100 := h
    omega
  have hmono : StrictMono (fun n : Nat => n + 100) := fun a b h =>
    Nat.add_lt_add_right h 100
  ⟨fun _ _ h => h, strictMono_id, hinj, hmono,
   c9_deterministic_modulo_ids pairCmds id id _ _ (fun _ _ h => h) strictMono_id
     hinj hmono⟩
